import Mathlib

/-!
Verification development for the bf-llvm compiler (src/main.rs): a shallow
embedding of its lexer (`Lexer`) and LLVM-IR code generator (`CodeGen`),
together with theorems about the properties stated in the design document.

The lexer state in the source is a character buffer plus a read index
(`Lexer { buffer, ptr }`); the embedding passes `buffer` and the index `p`
explicitly.  The alphanumeric test consulted in the stray-character branch
is the Rust standard library's `char::is_alphanumeric`, code external to
this repository; the embedded lexer is parametric in that test (`isAlpha`),
and every theorem about the branch holds for each choice of it — in
particular for the library's actual Unicode predicate.  The code generator's LLVM module is embedded as explicit data:
types, SSA values, instructions tagged with the basic block they are emitted
into, a function table, and the generator's own state (insertion point,
pointer-scope stack, loop-frame stack, procedure registry).  Rust panics and
`unwrap` failures are embedded as `Except.error`.
-/

/-- The instruction ("Op") type of the compiler, from `enum Op` in main.rs.
`pointerInc`/`pointerDec`/`valueInc`/`valueDec` carry run lengths. -/
inductive Op where
  | pointerInc (n : Nat)
  | pointerDec (n : Nat)
  | valueInc (n : Nat)
  | valueDec (n : Nat)
  | output
  | input
  | lloop
  | rloop
  | proc (ident : Char)
deriving DecidableEq

/-- Run-length carrying Ops carry a positive count; the other Ops carry none.
Used to state the no-zero-run-length invariant. -/
def Op.runLenPos : Op → Bool
  | .pointerInc n => decide (1 ≤ n)
  | .pointerDec n => decide (1 ≤ n)
  | .valueInc n => decide (1 ≤ n)
  | .valueDec n => decide (1 ≤ n)
  | _ => true

namespace Lexer

/-- Position `i` of a list, `none` past the end: `self.buffer.get(i)`. -/
theorem lt_length_of_getElem_some {α : Type} {l : List α} {i : Nat} {a : α}
    (h : l[i]? = some a) : i < l.length := by
  by_contra hn
  push_neg at hn
  rw [List.getElem?_eq_none hn] at h
  exact Option.noConfusion h

/-- The trailing `match` of `Lexer::eat_while_same`, mapping the run character
to its Op constructor; `none` stands for the `unreachable!` panic. -/
def charToRunOp (c : Char) (count : Nat) : Option Op :=
  if c = '>' then some (.pointerInc count)
  else if c = '<' then some (.pointerDec count)
  else if c = '+' then some (.valueInc count)
  else if c = '-' then some (.valueDec count)
  else none

/-- The scanning loop of `Lexer::eat_while_same`: starting at position `p`
with `count` characters already eaten, keep eating while the peeked character
equals `c`; returns the final count and read position. -/
def eatWhileSame (buffer : List Char) (c : Char) (p count : Nat) : Nat × Nat :=
  match h : buffer[p]? with
  | some ch =>
    if ch = c then eatWhileSame buffer c (p + 1) (count + 1) else (count, p)
  | none => (count, p)
termination_by buffer.length - p
decreasing_by
  have := lt_length_of_getElem_some h
  omega

/-- `Lexer::get_op`: returns the next Op together with the updated read
position, `(none, p)` at end of input, or an error for the panics.
`isAlpha` stands for the external `char::is_alphanumeric` test called in
the stray-character branch. -/
def getOp (isAlpha : Char → Bool) (buffer : List Char) (p : Nat) :
    Except String (Option Op × Nat) :=
  match h : buffer[p]? with
  | none => .ok (none, p)
  | some c =>
    if c = '>' ∨ c = '<' ∨ c = '+' ∨ c = '-' then
      match charToRunOp c (eatWhileSame buffer c p 0).1 with
      | some op => .ok (some op, (eatWhileSame buffer c p 0).2)
      | none => .error "unreachable"
    else if c = '.' then .ok (some .output, p + 1)
    else if c = ',' then .ok (some .input, p + 1)
    else if c = '[' then .ok (some .lloop, p + 1)
    else if c = ']' then .ok (some .rloop, p + 1)
    else if c = '\n' ∨ c = '\r' ∨ c = ' ' ∨ c = '\t' then
      getOp isAlpha buffer (p + 1)
    else if !(isAlpha c) then .ok (some (.proc c), p + 1)
    else .error "Illegal character!"
termination_by buffer.length - p
decreasing_by
  have := lt_length_of_getElem_some h
  omega

/-- Unfolding `eatWhileSame` at end of input. -/
theorem eatWhileSame_none {buffer : List Char} {c : Char} {p count : Nat}
    (h : buffer[p]? = none) : eatWhileSame buffer c p count = (count, p) := by
  rw [eatWhileSame]
  split
  · rename_i ch heq
    rw [h] at heq
    exact Option.noConfusion heq
  · rfl

/-- Unfolding `eatWhileSame` when a character is available. -/
theorem eatWhileSame_some {buffer : List Char} {c ch : Char} {p count : Nat}
    (h : buffer[p]? = some ch) :
    eatWhileSame buffer c p count =
      if ch = c then eatWhileSame buffer c (p + 1) (count + 1)
      else (count, p) := by
  rw [eatWhileSame]
  split
  · rename_i ch2 heq
    rw [h] at heq
    cases heq
    rfl
  · rename_i heq
    rw [h] at heq
    exact Option.noConfusion heq

/-- `eatWhileSame` never moves the read position backwards, never counts
fewer characters than it started with, and never moves past the end of the
buffer (unless it already starts there). -/
theorem eatWhileSame_le (buffer : List Char) (c : Char) :
    ∀ p count, p ≤ (eatWhileSame buffer c p count).2 ∧
      count ≤ (eatWhileSame buffer c p count).1 ∧
      (eatWhileSame buffer c p count).2 ≤ max p buffer.length := by
  have key : ∀ n p count, buffer.length - p ≤ n →
      p ≤ (eatWhileSame buffer c p count).2 ∧
      count ≤ (eatWhileSame buffer c p count).1 ∧
      (eatWhileSame buffer c p count).2 ≤ max p buffer.length := by
    intro n
    induction n with
    | zero =>
      intro p count hn
      have hnone : buffer[p]? = none := List.getElem?_eq_none (by omega)
      rw [eatWhileSame_none hnone]
      simp
    | succ n ih =>
      intro p count hn
      cases h : buffer[p]? with
      | none =>
        rw [eatWhileSame_none h]
        simp
      | some ch =>
        have hlt := lt_length_of_getElem_some h
        rw [eatWhileSame_some h]
        by_cases hc : ch = c
        · rw [if_pos hc]
          have := ih (p + 1) (count + 1) (by omega)
          exact ⟨by omega, by omega, by omega⟩
        · rw [if_neg hc]
          simp
  intro p count
  exact key (buffer.length - p) p count le_rfl

/-- If the character at the read position matches, `eatWhileSame` eats at
least one character. -/
theorem eatWhileSame_pos (buffer : List Char) (c : Char) (p count : Nat)
    (h : buffer[p]? = some c) :
    p + 1 ≤ (eatWhileSame buffer c p count).2 ∧
      count + 1 ≤ (eatWhileSame buffer c p count).1 := by
  rw [eatWhileSame_some h, if_pos rfl]
  have := eatWhileSame_le buffer c (p + 1) (count + 1)
  exact ⟨by omega, by omega⟩

/-- Unfolding `getOp` at end of input. -/
theorem getOp_none {isAlpha : Char → Bool} {buffer : List Char} {p : Nat}
    (h : buffer[p]? = none) : getOp isAlpha buffer p = .ok (none, p) := by
  rw [getOp]
  split
  · rfl
  · rename_i c heq
    rw [h] at heq
    exact Option.noConfusion heq

/-- Unfolding `getOp` when a character is available. -/
theorem getOp_some {isAlpha : Char → Bool} {buffer : List Char} {p : Nat}
    {c : Char} (h : buffer[p]? = some c) :
    getOp isAlpha buffer p =
      if c = '>' ∨ c = '<' ∨ c = '+' ∨ c = '-' then
        match charToRunOp c (eatWhileSame buffer c p 0).1 with
        | some op => .ok (some op, (eatWhileSame buffer c p 0).2)
        | none => .error "unreachable"
      else if c = '.' then .ok (some .output, p + 1)
      else if c = ',' then .ok (some .input, p + 1)
      else if c = '[' then .ok (some .lloop, p + 1)
      else if c = ']' then .ok (some .rloop, p + 1)
      else if c = '\n' ∨ c = '\r' ∨ c = ' ' ∨ c = '\t' then
        getOp isAlpha buffer (p + 1)
      else if !(isAlpha c) then .ok (some (.proc c), p + 1)
      else .error "Illegal character!" := by
  rw [getOp]
  split
  · rename_i heq
    rw [h] at heq
    exact Option.noConfusion heq
  · rename_i c2 heq
    rw [h] at heq
    cases heq
    rfl

/-- A run Op produced by `charToRunOp` from a positive count has a positive
run length. -/
theorem charToRunOp_runLenPos {c : Char} {m : Nat} {op : Op}
    (h : charToRunOp c m = some op) (hm : 1 ≤ m) : op.runLenPos = true := by
  unfold charToRunOp at h
  split at h
  · cases h; simpa [Op.runLenPos]
  · split at h
    · cases h; simpa [Op.runLenPos]
    · split at h
      · cases h; simpa [Op.runLenPos]
      · split at h
        · cases h; simpa [Op.runLenPos]
        · exact Option.noConfusion h

/-- `charToRunOp` succeeds exactly on the four run characters. -/
theorem charToRunOp_isSome {c : Char} (h : c = '>' ∨ c = '<' ∨ c = '+' ∨ c = '-') :
    ∃ op, charToRunOp c m = some op := by
  rcases h with h | h | h | h <;> subst h <;> exact ⟨_, rfl⟩

/-- Characterization of successful `getOp` results: at end of input the read
position is exhausted and has not moved backwards; a produced Op strictly
advances the read position, stays within the buffer, and carries no zero
run length. -/
theorem getOp_spec (isAlpha : Char → Bool) (buffer : List Char) :
    ∀ p res, getOp isAlpha buffer p = .ok res →
      (res.1 = none → buffer[res.2]? = none ∧ p ≤ res.2) ∧
      (∀ op, res.1 = some op →
        p < res.2 ∧ res.2 ≤ buffer.length ∧ op.runLenPos = true) := by
  have key : ∀ n p, buffer.length - p ≤ n →
      ∀ res, getOp isAlpha buffer p = .ok res →
      (res.1 = none → buffer[res.2]? = none ∧ p ≤ res.2) ∧
      (∀ op, res.1 = some op →
        p < res.2 ∧ res.2 ≤ buffer.length ∧ op.runLenPos = true) := by
    intro n
    induction n with
    | zero =>
      intro p hn res hres
      have hnone : buffer[p]? = none := List.getElem?_eq_none (by omega)
      rw [getOp_none hnone] at hres
      injection hres with h2
      subst h2
      exact ⟨fun _ => ⟨hnone, le_rfl⟩, fun op hop => by simp at hop⟩
    | succ n ih =>
      intro p hn res hres
      cases h : buffer[p]? with
      | none =>
        rw [getOp_none h] at hres
        injection hres with h2
        subst h2
        exact ⟨fun _ => ⟨h, le_rfl⟩, fun op hop => by simp at hop⟩
      | some c =>
        have hlt := lt_length_of_getElem_some h
        rw [getOp_some h] at hres
        by_cases hrun : c = '>' ∨ c = '<' ∨ c = '+' ∨ c = '-'
        · rw [if_pos hrun] at hres
          obtain ⟨op0, heq⟩ := charToRunOp_isSome hrun
          rw [heq] at hres
          injection hres with h2
          subst h2
          refine ⟨fun hcontra => by simp at hcontra, fun op hop => ?_⟩
          obtain rfl : op0 = op := by simpa using hop
          have hp := eatWhileSame_pos buffer c p 0 h
          have hl := (eatWhileSame_le buffer c p 0).2.2
          exact ⟨by omega, by omega, charToRunOp_runLenPos heq (by omega)⟩
        · rw [if_neg hrun] at hres
          by_cases hdot : c = '.'
          · rw [if_pos hdot] at hres
            injection hres with h2
            subst h2
            refine ⟨fun hcontra => by simp at hcontra, fun op hop => ?_⟩
            obtain rfl : Op.output = op := by simpa using hop
            exact ⟨by omega, by omega, rfl⟩
          · rw [if_neg hdot] at hres
            by_cases hcom : c = ','
            · rw [if_pos hcom] at hres
              injection hres with h2
              subst h2
              refine ⟨fun hcontra => by simp at hcontra, fun op hop => ?_⟩
              obtain rfl : Op.input = op := by simpa using hop
              exact ⟨by omega, by omega, rfl⟩
            · rw [if_neg hcom] at hres
              by_cases hlb : c = '['
              · rw [if_pos hlb] at hres
                injection hres with h2
                subst h2
                refine ⟨fun hcontra => by simp at hcontra, fun op hop => ?_⟩
                obtain rfl : Op.lloop = op := by simpa using hop
                exact ⟨by omega, by omega, rfl⟩
              · rw [if_neg hlb] at hres
                by_cases hrb : c = ']'
                · rw [if_pos hrb] at hres
                  injection hres with h2
                  subst h2
                  refine ⟨fun hcontra => by simp at hcontra, fun op hop => ?_⟩
                  obtain rfl : Op.rloop = op := by simpa using hop
                  exact ⟨by omega, by omega, rfl⟩
                · rw [if_neg hrb] at hres
                  by_cases hws : c = '\n' ∨ c = '\r' ∨ c = ' ' ∨ c = '\t'
                  · rw [if_pos hws] at hres
                    have hrec := ih (p + 1) (by omega) res hres
                    refine ⟨fun h0 => ?_, fun op hop => ?_⟩
                    · obtain ⟨ha, hb⟩ := hrec.1 h0
                      exact ⟨ha, by omega⟩
                    · obtain ⟨ha, hb, hc2⟩ := hrec.2 op hop
                      exact ⟨by omega, hb, hc2⟩
                  · rw [if_neg hws] at hres
                    by_cases halpha : isAlpha c = true
                    · simp only [halpha] at hres
                      exact Except.noConfusion hres
                    · have halpha2 : isAlpha c = false :=
                        Bool.eq_false_iff.mpr halpha
                      simp only [halpha2] at hres
                      injection hres with h2
                      subst h2
                      refine ⟨fun hcontra => by simp at hcontra, fun op hop => ?_⟩
                      obtain rfl : Op.proc c = op := by simpa using hop
                      exact ⟨by omega, by omega, rfl⟩
  intro p res hres
  exact key (buffer.length - p) p le_rfl res hres

/-- The lexing loop of `Lexer::run`, pushing each Op onto the accumulator;
terminates because every successful `getOp` with an Op strictly advances the
read position within the buffer (`getOp_spec`). -/
def runFrom (isAlpha : Char → Bool) (buffer : List Char) (p : Nat)
    (acc : List Op) : Except String (List Op) :=
  match hres : getOp isAlpha buffer p with
  | .ok (some op, q) => runFrom isAlpha buffer q (acc ++ [op])
  | .ok (none, _) => .ok acc
  | .error e => .error e
termination_by buffer.length - p
decreasing_by
  have hspec := (getOp_spec isAlpha buffer p (some op, q) hres).2 op rfl
  omega

/-- `Lexer::run` on a whole buffer: `Lexer::new(source).run()`. -/
def run (isAlpha : Char → Bool) (buffer : List Char) :
    Except String (List Op) := runFrom isAlpha buffer 0 []

end Lexer

/-! ## The code generator

The LLVM module under construction is embedded as data.  Types, SSA values
and instructions mirror exactly what the inkwell builder calls in main.rs
construct (with LLVM's pre-opaque-pointer typed pointers, as used by the
two-argument `build_load`).  Basic blocks are numbered globally in creation
order; each function records its block list in append order, and
`blockOwner` records each block's parent function (inkwell's
`BasicBlock::get_parent`).  The `VecDeque` stacks `ptr` and `loops` are used
in the source only through `push_back` / `back` / `pop_back`, i.e. as LIFO
stacks; the embedding keeps them as lists with the back (top) at the head.
The `HashMap<char, Option<FunctionValue>>` registry is an association list
keyed by the identifier character, holding the function's name.  `unwrap`
and panics are `Except.error`. -/

/-- LLVM types used by the generator. -/
inductive Ty where
  | int (w : Nat)
  | ptr (pointee : Ty)
  | void
deriving DecidableEq

/-- SSA values: numbered temporaries, typed integer constants, and function
parameters. -/
inductive Val where
  | temp (id : Nat) (ty : Ty)
  | cst (ty : Ty) (v : Int)
  | param (fn : String) (idx : Nat) (ty : Ty)
deriving DecidableEq

/-- The type of a value. -/
def Val.ty : Val → Ty
  | .temp _ t => t
  | .cst t _ => t
  | .param _ _ t => t

/-- The IR instructions the generator emits.  Operand types are recorded as
built, whether or not LLVM would accept them (LLVM requires both operands of
`add`/`sub` to share one type and call arguments to match the callee's
declared parameter types). -/
inductive Instr where
  | load (dst : Val) (src : Val)
  | store (val : Val) (dst : Val)
  | add (dst : Val) (lhs rhs : Val)
  | sub (dst : Val) (lhs rhs : Val)
  | gep (dst : Val) (base : Val) (offset : Val)
  | icmpNe (dst : Val) (lhs rhs : Val)
  | br (target : Nat)
  | condBr (cond : Val) (thenBlk elseBlk : Nat)
  | call (dst : Option Val) (callee : String) (args : List Val)
  | ret (val : Option Val)
  | alloca (dst : Val) (allocated : Ty)
deriving DecidableEq

/-- A function of the module: name, declared parameter types, return type,
and its basic blocks in append order. -/
structure Func where
  name : String
  params : List Ty
  retTy : Ty
  blocks : List Nat
deriving DecidableEq

/-- The state of `CodeGen`: module contents plus the generator's mutable
state (builder insertion point, pointer-scope stack, loop-frame stack,
procedure registry). -/
structure CGState where
  nextTemp : Nat
  nextBlock : Nat
  funcs : List Func
  blockOwner : List (Nat × String)
  instrs : List (Nat × Instr)
  insertion : Option Nat
  ptr : List Val
  loops : List (Nat × Nat)
  procs : List (Char × Option String)
deriving DecidableEq

namespace CodeGen

/-- `Module::get_function`. -/
def getFunction (s : CGState) (name : String) : Option Func :=
  s.funcs.find? (fun f => f.name = name)

/-- `Module::add_function` (declaration only; no blocks yet). -/
def addFunction (s : CGState) (name : String) (params : List Ty)
    (retTy : Ty) : CGState :=
  { s with funcs := s.funcs ++ [⟨name, params, retTy, []⟩] }

/-- `Context::append_basic_block`: a fresh block number appended to the named
function's block list. -/
def appendBasicBlock (s : CGState) (fname : String) : Nat × CGState :=
  (s.nextBlock,
   { s with
      nextBlock := s.nextBlock + 1,
      funcs := s.funcs.map (fun f =>
        if f.name = fname then { f with blocks := f.blocks ++ [s.nextBlock] }
        else f),
      blockOwner := s.blockOwner ++ [(s.nextBlock, fname)] })

/-- `Builder::position_at_end`. -/
def positionAtEnd (s : CGState) (b : Nat) : CGState :=
  { s with insertion := some b }

/-- Emit one instruction at the current insertion point. -/
def emit (s : CGState) (i : Instr) : Except String CGState :=
  match s.insertion with
  | some b => .ok { s with instrs := s.instrs ++ [(b, i)] }
  | none => .error "builder not positioned"

/-- Allocate a fresh SSA temporary of the given type. -/
def freshTemp (s : CGState) (ty : Ty) : Val × CGState :=
  (.temp s.nextTemp ty, { s with nextTemp := s.nextTemp + 1 })

/-- `Builder::build_load` (typed-pointer form): the result type is the
pointee type of the loaded pointer. -/
def buildLoad (s : CGState) (src : Val) : Except String (Val × CGState) :=
  match src.ty with
  | .ptr t =>
    let r := freshTemp s t
    (emit r.2 (.load r.1 src)).map (fun s2 => (r.1, s2))
  | _ => .error "load from non-pointer value"

/-- `Builder::build_store` (pointer first, stored value second, as in the
source). -/
def buildStore (s : CGState) (dst val : Val) : Except String CGState :=
  emit s (.store val dst)

/-- `Builder::build_alloca`: result has pointer-to-`ty` type. -/
def buildAlloca (s : CGState) (ty : Ty) : Except String (Val × CGState) :=
  let r := freshTemp s (.ptr ty)
  (emit r.2 (.alloca r.1 ty)).map (fun s2 => (r.1, s2))

/-- `Builder::build_gep` on a pointer base. -/
def buildGep (s : CGState) (base offset : Val) :
    Except String (Val × CGState) :=
  match base.ty with
  | .ptr _ =>
    let r := freshTemp s base.ty
    (emit r.2 (.gep r.1 base offset)).map (fun s2 => (r.1, s2))
  | _ => .error "gep on non-pointer value"

/-- `Builder::build_int_add`.  The result temporary takes the left operand's
type; both operand types are recorded on the instruction as built. -/
def buildAdd (s : CGState) (lhs rhs : Val) : Except String (Val × CGState) :=
  let r := freshTemp s lhs.ty
  (emit r.2 (.add r.1 lhs rhs)).map (fun s2 => (r.1, s2))

/-- `Builder::build_int_sub`. -/
def buildSub (s : CGState) (lhs rhs : Val) : Except String (Val × CGState) :=
  let r := freshTemp s lhs.ty
  (emit r.2 (.sub r.1 lhs rhs)).map (fun s2 => (r.1, s2))

/-- `Builder::build_int_compare(NE, ..)`: result is a 1-bit integer. -/
def buildICmpNe (s : CGState) (lhs rhs : Val) :
    Except String (Val × CGState) :=
  let r := freshTemp s (.int 1)
  (emit r.2 (.icmpNe r.1 lhs rhs)).map (fun s2 => (r.1, s2))

/-- `Builder::build_call`: a call instruction; a void callee produces no
result value. -/
def buildCall (s : CGState) (callee : String) (args : List Val) :
    Except String (Option Val × CGState) :=
  match getFunction s callee with
  | none => .error "unknown function"
  | some f =>
    match f.retTy with
    | .void => (emit s (.call none callee args)).map (fun s2 => (none, s2))
    | t =>
      let r := freshTemp s t
      (emit r.2 (.call (some r.1) callee args)).map (fun s2 => (some r.1, s2))

/-- `self.ptr.back().unwrap()`: the top of the pointer-scope stack. -/
def ptrTop (s : CGState) : Except String Val :=
  match s.ptr with
  | t :: _ => .ok t
  | [] => .error "pointer-scope stack empty"

/-- Registry lookup: `self.procs.get(&ident)`. -/
def procsGet (m : List (Char × Option String)) (c : Char) :
    Option (Option String) :=
  (m.find? (fun q => q.1 = c)).map (fun q => q.2)

/-- Registry insert (replacing any existing entry):
`self.procs.insert(ident, v)`. -/
def procsInsert (m : List (Char × Option String)) (c : Char)
    (v : Option String) : List (Char × Option String) :=
  if m.any (fun q => q.1 = c) then
    m.map (fun q => if q.1 = c then (c, v) else q)
  else m ++ [(c, v)]

/-- `CodeGen::ptr_manipulate`: load the pointer-scope top, offset it by
`count` raw bytes (negated 64-bit constant when `dec`), store it back. -/
def ptr_manipulate (s : CGState) (count : Nat) (dec : Bool) :
    Except String CGState := do
  let t ← ptrTop s
  let r1 ← buildLoad s t
  let v := r1.1
  let s := r1.2
  let int_val : Val :=
    if dec then .cst (.int 64) (-(count : Int)) else .cst (.int 64) (count : Int)
  let r2 ← buildGep s v int_val
  buildStore r2.2 t r2.1

/-- `CodeGen::val_manipulate`: load the pointer, load the addressed cell,
add or subtract the 64-bit run-length constant, store back.  Note the
constant is built with `i64_type`, not the cell's 8-bit type — exactly as
in the source. -/
def val_manipulate (s : CGState) (count : Nat) (dec : Bool) :
    Except String CGState := do
  let t ← ptrTop s
  let r1 ← buildLoad s t
  let v := r1.1
  let r2 ← buildLoad r1.2 v
  let val := r2.1
  let int_val : Val := .cst (.int 64) (count : Int)
  let r3 ←
    if !dec then buildAdd r2.2 val int_val else buildSub r2.2 val int_val
  buildStore r3.2 v r3.1

/-- `CodeGen::out`: load pointer, load cell, call `putchar` with the loaded
value as the sole argument. -/
def out (s : CGState) : Except String CGState := do
  let t ← ptrTop s
  let r1 ← buildLoad s t
  let r2 ← buildLoad r1.2 r1.1
  let r3 ← buildCall r2.2 "putchar" [r2.1]
  pure r3.2

/-- `CodeGen::input`: call `getchar`, store its result through the current
pointer. -/
def input (s : CGState) : Except String CGState := do
  let t ← ptrTop s
  let r1 ← buildLoad s t
  let r2 ← buildCall r1.2 "getchar" []
  match r2.1 with
  | some rv => buildStore r2.2 r1.1 rv
  | none => .error "getchar returned no value"

/-- `CodeGen::loop_start`: append condition, body and exit blocks to the
current block's parent function, push (condition, exit) on the loop stack,
branch to condition, test the current cell against zero there, and position
at body. -/
def loop_start (s : CGState) : Except String CGState := do
  let start_block ←
    (match s.insertion with
     | some b => Except.ok b
     | none => Except.error "builder not positioned")
  let parent ←
    (match s.blockOwner.find? (fun q => q.1 = start_block) with
     | some q => Except.ok q.2
     | none => Except.error "block without parent")
  let rc := appendBasicBlock s parent
  let cond_block := rc.1
  let rb := appendBasicBlock rc.2 parent
  let body_block := rb.1
  let re := appendBasicBlock rb.2 parent
  let end_block := re.1
  let s := { re.2 with loops := (cond_block, end_block) :: re.2.loops }
  let s ← emit s (.br cond_block)
  let s := positionAtEnd s cond_block
  let t ← ptrTop s
  let r1 ← buildLoad s t
  let r2 ← buildLoad r1.2 r1.1
  let r3 ← buildICmpNe r2.2 r2.1 (.cst (.int 8) 0)
  let s ← emit r3.2 (.condBr r3.1 body_block end_block)
  pure (positionAtEnd s body_block)

/-- `CodeGen::loop_end`: pop the top loop frame (panics when empty), branch
back to its condition block, position at its exit block. -/
def loop_end (s : CGState) : Except String CGState :=
  match s.loops with
  | [] => .error "pop from empty loop stack"
  | (cond_block, end_block) :: rest => do
    let s := { s with loops := rest }
    let s ← emit s (.br cond_block)
    pure (positionAtEnd s end_block)

/-- `CodeGen::proc`, dispatching on the registry state of `ident`. -/
def procOp (s : CGState) (ident : Char) : Except String CGState :=
  match procsGet s.procs ident with
  | none => do
    let i8p := Ty.ptr (.int 8)
    let fname := String.mk [ident]
    let s := addFunction s fname [i8p] .void
    let pparam := Val.param fname 0 i8p
    let re := appendBasicBlock s fname
    let s := positionAtEnd re.2 re.1
    let ra ← buildAlloca s i8p
    let s ← buildStore ra.2 ra.1 pparam
    let s := { s with ptr := ra.1 :: s.ptr }
    pure { s with procs := procsInsert s.procs ident none }
  | some none => do
    let s ← emit s (.ret none)
    let rest ←
      (match s.ptr with
       | _ :: rest => Except.ok rest
       | [] => Except.error "pop from empty pointer stack")
    let s := { s with ptr := rest }
    let mainF ←
      (match getFunction s "main" with
       | some f => Except.ok f
       | none => Except.error "no main function")
    let last_block ←
      (match mainF.blocks.getLast? with
       | some b => Except.ok b
       | none => Except.error "main has no blocks")
    let f ←
      (match getFunction s (String.mk [ident]) with
       | some f => Except.ok f
       | none => Except.error "procedure function missing")
    let s := positionAtEnd s last_block
    pure { s with procs := procsInsert s.procs ident (some f.name) }
  | some (some fname) => do
    let t ← ptrTop s
    let r1 ← buildLoad s t
    let r2 ← buildCall r1.2 fname [r1.1]
    pure r2.2

/-- `CodeGen::new`: declare `putchar`, `getchar`, `calloc` and `main`, open
main's entry block, allocate the tape-pointer cell, call `calloc(1000, 1)`
and store the result as the bottom pointer-scope entry. -/
def new : Except String CGState := do
  let s : CGState :=
    { nextTemp := 0, nextBlock := 0, funcs := [], blockOwner := [],
      instrs := [], insertion := none, ptr := [], loops := [], procs := [] }
  let i8t := Ty.int 8
  let i32t := Ty.int 32
  let i8p := Ty.ptr i8t
  let i64t := Ty.int 64
  let s := addFunction s "putchar" [i32t] i8t
  let s := addFunction s "getchar" [] i8t
  let s := addFunction s "calloc" [i64t, i64t] i8p
  let s := addFunction s "main" [] i8t
  let rb := appendBasicBlock s "main"
  let s := positionAtEnd rb.2 rb.1
  let ra ← buildAlloca s i8p
  let rc ← buildCall ra.2 "calloc" [.cst i64t 1000, .cst i64t 1]
  let cv ←
    (match rc.1 with
     | some v => Except.ok v
     | none => Except.error "calloc returned no value")
  let s ← buildStore rc.2 ra.1 cv
  pure { s with ptr := [ra.1] }

/-- One iteration of the dispatch loop in `CodeGen::run`. -/
def step (s : CGState) (op : Op) : Except String CGState :=
  match op with
  | .pointerInc v => ptr_manipulate s v false
  | .pointerDec v => ptr_manipulate s v true
  | .valueInc v => val_manipulate s v false
  | .valueDec v => val_manipulate s v true
  | .output => out s
  | .input => input s
  | .lloop => loop_start s
  | .rloop => loop_end s
  | .proc ident => procOp s ident

/-- The dispatch loop of `CodeGen::run` over the whole Op sequence. -/
def steps (s : CGState) (ops : List Op) : Except String CGState :=
  match ops with
  | [] => .ok s
  | op :: rest => (step s op).bind (fun s2 => steps s2 rest)

/-- `CodeGen::run`: process every Op, then return the zero byte from the
final insertion point. -/
def run (s : CGState) (ops : List Op) : Except String CGState := do
  let s ← steps s ops
  emit s (.ret (some (.cst (.int 8) 0)))

end CodeGen


/-! ## Observers and generator traces -/

/-- The (lhs, rhs) operand types of every add/sub instruction emitted. -/
def addSubOperandTys (s : CGState) : List (Ty × Ty) :=
  s.instrs.filterMap (fun q =>
    match q.2 with
    | .add _ l r => some (l.ty, r.ty)
    | .sub _ l r => some (l.ty, r.ty)
    | _ => none)

/-- The argument type lists of every call to `putchar` emitted. -/
def putcharCallArgTys (s : CGState) : List (List Ty) :=
  s.instrs.filterMap (fun q =>
    match q.2 with
    | .call _ callee args =>
      if callee = "putchar" then some (args.map Val.ty) else none
    | _ => none)

/-- Rank of a procedure-registry entry: Unseen 0, Defining 1, Ready 2. -/
def regRank (m : List (Char × Option String)) (c : Char) : Nat :=
  match CodeGen.procsGet m c with
  | none => 0
  | some none => 1
  | some (some _) => 2

/-- The sequence of generator states visited while processing an Op list
(cut short at a fatal error). -/
def cgTrace (s : CGState) : List Op → List CGState
  | [] => [s]
  | op :: rest =>
    match CodeGen.step s op with
    | .ok s2 => s :: cgTrace s2 rest
    | .error _ => [s]

/-- Number of adjacent pairs equal to `(a, b)` in a list of naturals. -/
def countTrans : List Nat → Nat → Nat → Nat
  | x :: y :: l, a, b =>
    (if x = a ∧ y = b then 1 else 0) + countTrans (y :: l) a b
  | _, _, _ => 0

/-- A generator state in the middle of a procedure definition for `!`:
insertion inside the procedure's body block, a pushed pointer scope, and a
Defining registry entry; concrete input for the procedure-close witness. -/
def procWitState : CGState :=
  { nextTemp := 9, nextBlock := 3,
    funcs := [⟨"main", [], .int 8, [0, 1]⟩, ⟨"!", [.ptr (.int 8)], .void, [2]⟩],
    blockOwner := [(0, "main"), (1, "main"), (2, "!")],
    instrs := [], insertion := some 2,
    ptr := [.temp 5 (.ptr (.ptr (.int 8))), .temp 0 (.ptr (.ptr (.int 8)))],
    loops := [], procs := [('!', none)] }

/-- A state with one open loop frame, for the LoopClose witness. -/
def loopCloseWitState : CGState :=
  { nextTemp := 0, nextBlock := 4,
    funcs := [⟨"main", [], .int 8, [0, 1, 2, 3]⟩],
    blockOwner := [(0, "main"), (1, "main"), (2, "main"), (3, "main")],
    instrs := [], insertion := some 2,
    ptr := [.temp 0 (.ptr (.ptr (.int 8)))],
    loops := [(1, 3)], procs := [] }

/-- The same state with no open loop frame. -/
def loopCloseEmptyState : CGState :=
  { loopCloseWitState with loops := [] }

/-! ## Lexer theorems -/

namespace Lexer

/-- Exact description of `eatWhileSame` on a run: if the `m` characters from
`p` all equal `c` and the character at `p + m` (if any) differs, the scan
stops exactly at `p + m` having counted `m` more characters. -/
theorem eatWhileSame_run (buffer : List Char) (c : Char) :
    ∀ m p count,
      (∀ i, i < m → buffer[p + i]? = some c) →
      (∀ ch, buffer[p + m]? = some ch → ch ≠ c) →
      eatWhileSame buffer c p count = (count + m, p + m) := by
  intro m
  induction m with
  | zero =>
    intro p count _ hstop
    cases h : buffer[p]? with
    | none =>
      rw [eatWhileSame_none h]
      simp
    | some ch =>
      have hne : ch ≠ c := hstop ch (by simpa using h)
      rw [eatWhileSame_some h, if_neg hne]
      simp
  | succ m ih =>
    intro p count hrun hstop
    have h0 : buffer[p]? = some c := by simpa using hrun 0 (by omega)
    rw [eatWhileSame_some h0, if_pos rfl]
    have hrec := ih (p + 1) (count + 1)
      (fun i hi => by
        have := hrun (i + 1) (by omega)
        have harith : p + (i + 1) = p + 1 + i := by omega
        rwa [harith] at this)
      (fun ch hch => hstop ch (by
        have harith : p + (m + 1) = p + 1 + m := by omega
        rwa [harith]))
    rw [hrec]
    have h1 : count + 1 + m = count + (m + 1) := by omega
    have h2 : p + 1 + m = p + (m + 1) := by omega
    rw [h1, h2]

/-- Unfolding `runFrom` when `getOp` produces an Op. -/
theorem runFrom_op {isAlpha : Char → Bool} {buffer : List Char} {p : Nat}
    {acc : List Op} {op : Op} {q : Nat}
    (h : getOp isAlpha buffer p = .ok (some op, q)) :
    runFrom isAlpha buffer p acc = runFrom isAlpha buffer q (acc ++ [op]) := by
  rw [runFrom]
  split
  · rename_i op2 q2 heq
    rw [h] at heq
    cases heq
    rfl
  · rename_i q2 heq
    rw [h] at heq
    cases heq
  · rename_i e heq
    rw [h] at heq
    cases heq

/-- Unfolding `runFrom` at end of input. -/
theorem runFrom_eof {isAlpha : Char → Bool} {buffer : List Char} {p : Nat}
    {acc : List Op} {q : Nat} (h : getOp isAlpha buffer p = .ok (none, q)) :
    runFrom isAlpha buffer p acc = .ok acc := by
  rw [runFrom]
  split
  · rename_i op2 q2 heq
    rw [h] at heq
    cases heq
  · rfl
  · rename_i e heq
    rw [h] at heq
    cases heq

/-- Unfolding `runFrom` when `getOp` panics. -/
theorem runFrom_err {isAlpha : Char → Bool} {buffer : List Char} {p : Nat}
    {acc : List Op} {e : String} (h : getOp isAlpha buffer p = .error e) :
    runFrom isAlpha buffer p acc = .error e := by
  rw [runFrom]
  split
  · rename_i op2 q2 heq
    rw [h] at heq
    cases heq
  · rename_i q2 heq
    rw [h] at heq
    cases heq
  · rename_i e2 heq
    rw [h] at heq
    cases heq
    rfl

/-- Lexing a buffer of `k ≥ 1` copies of one of the four run characters
yields exactly the one Op `charToRunOp` assigns to the run. -/
theorem run_replicate (isAlpha : Char → Bool) (c : Char) (k : Nat)
    (hc : c = '>' ∨ c = '<' ∨ c = '+' ∨ c = '-') (hk : 1 ≤ k) :
    ∃ op, charToRunOp c k = some op ∧
      run isAlpha (List.replicate k c) = .ok [op] := by
  obtain ⟨op, hop⟩ := charToRunOp_isSome (m := k) hc
  refine ⟨op, hop, ?_⟩
  have h0 : (List.replicate k c)[0]? = some c :=
    List.getElem?_replicate_of_lt (by omega)
  have heat : eatWhileSame (List.replicate k c) c 0 0 = (k, k) := by
    have := eatWhileSame_run (List.replicate k c) c k 0 0
      (fun i hi => by
        simpa using List.getElem?_replicate_of_lt (a := c) (by omega : 0 + i < k))
      (fun ch hch => by
        rw [show (0 : Nat) + k = k by omega, List.getElem?_replicate] at hch
        simp at hch)
    simpa using this
  have hget : getOp isAlpha (List.replicate k c) 0 = .ok (some op, k) := by
    rw [getOp_some h0, if_pos hc, heat]
    simp only [hop]
  unfold run
  rw [runFrom_op hget]
  have hend : (List.replicate k c)[k]? = none := by
    rw [List.getElem?_replicate]
    simp
  rw [runFrom_eof (getOp_none hend)]
  rfl

/-- C3: for an input of `k ≥ 1` repeated `+` characters the Lexer produces
exactly the single Op CellIncrement(k), analogously for `-`, `>`, `<`; and a
run of `k1` copies of `+` followed by `k2` copies of `-` yields exactly the
two Ops CellIncrement(k1) then CellDecrement(k2): runs never merge across a
differing character. -/
theorem lexer_run_length_folding (isAlpha : Char → Bool) (k k1 k2 : Nat)
    (hk : 1 ≤ k) (h1 : 1 ≤ k1) (h2 : 1 ≤ k2) :
    run isAlpha (List.replicate k '+') = .ok [.valueInc k] ∧
    run isAlpha (List.replicate k '-') = .ok [.valueDec k] ∧
    run isAlpha (List.replicate k '>') = .ok [.pointerInc k] ∧
    run isAlpha (List.replicate k '<') = .ok [.pointerDec k] ∧
    run isAlpha (List.replicate k1 '+' ++ List.replicate k2 '-') =
      .ok [.valueInc k1, .valueDec k2] := by
  refine ⟨?_, ?_, ?_, ?_, ?_⟩
  · obtain ⟨op, hop, hr⟩ := run_replicate isAlpha '+' k (by tauto) hk
    rw [show charToRunOp '+' k = some (.valueInc k) from rfl] at hop
    cases hop
    exact hr
  · obtain ⟨op, hop, hr⟩ := run_replicate isAlpha '-' k (by tauto) hk
    rw [show charToRunOp '-' k = some (.valueDec k) from rfl] at hop
    cases hop
    exact hr
  · obtain ⟨op, hop, hr⟩ := run_replicate isAlpha '>' k (by tauto) hk
    rw [show charToRunOp '>' k = some (.pointerInc k) from rfl] at hop
    cases hop
    exact hr
  · obtain ⟨op, hop, hr⟩ := run_replicate isAlpha '<' k (by tauto) hk
    rw [show charToRunOp '<' k = some (.pointerDec k) from rfl] at hop
    cases hop
    exact hr
  · set buffer := List.replicate k1 '+' ++ List.replicate k2 '-' with hbuf
    have hlen1 : (List.replicate k1 '+').length = k1 := List.length_replicate ..
    have hleft : ∀ i, i < k1 → buffer[i]? = some '+' := by
      intro i hi
      rw [hbuf, List.getElem?_append_left (by omega)]
      exact List.getElem?_replicate_of_lt (by omega)
    have hright : ∀ j, buffer[k1 + j]? = (List.replicate k2 '-')[j]? := by
      intro j
      rw [hbuf, List.getElem?_append_right (by omega)]
      congr 1
      omega
    have hK1 : buffer[k1]? = some '-' := by
      have := hright 0
      rw [show k1 + 0 = k1 by omega] at this
      rw [this]
      exact List.getElem?_replicate_of_lt (by omega)
    have heat1 : eatWhileSame buffer '+' 0 0 = (k1, k1) := by
      have := eatWhileSame_run buffer '+' k1 0 0
        (fun i hi => by simpa using hleft i hi)
        (fun ch hch => by
          rw [show (0 : Nat) + k1 = k1 by omega, hK1] at hch
          cases hch
          decide)
      simpa using this
    have hb0 : buffer[0]? = some '+' := hleft 0 (by omega)
    have hget1 : getOp isAlpha buffer 0 = .ok (some (.valueInc k1), k1) := by
      rw [getOp_some hb0, if_pos (by tauto : '+' = '>' ∨ '+' = '<' ∨ '+' = '+' ∨ '+' = '-'), heat1]
      rfl
    have heat2 : eatWhileSame buffer '-' k1 0 = (k2, k1 + k2) := by
      have := eatWhileSame_run buffer '-' k2 k1 0
        (fun i hi => by
          rw [hright i]
          exact List.getElem?_replicate_of_lt (by omega))
        (fun ch hch => by
          rw [hright k2, List.getElem?_replicate] at hch
          simp at hch)
      simpa using this
    have hget2 : getOp isAlpha buffer k1 = .ok (some (.valueDec k2), k1 + k2) := by
      rw [getOp_some hK1, if_pos (by tauto : '-' = '>' ∨ '-' = '<' ∨ '-' = '+' ∨ '-' = '-'), heat2]
      rfl
    have hend : buffer[k1 + k2]? = none := by
      rw [hright k2, List.getElem?_replicate]
      simp
    unfold run
    rw [runFrom_op hget1, runFrom_op hget2, runFrom_eof (getOp_none hend)]
    rfl

/-- Witness for C3 at k = k1 = k2 = 2, with `Char.isAlphanum` as one
concrete instantiation of the external alphanumeric test (the run branch
never consults it). -/
theorem lexer_run_length_folding_witness :
    run Char.isAlphanum (List.replicate 2 '+') = .ok [.valueInc 2] ∧
    run Char.isAlphanum (List.replicate 2 '-') = .ok [.valueDec 2] ∧
    run Char.isAlphanum (List.replicate 2 '>') = .ok [.pointerInc 2] ∧
    run Char.isAlphanum (List.replicate 2 '<') = .ok [.pointerDec 2] ∧
    run Char.isAlphanum (List.replicate 2 '+' ++ List.replicate 2 '-') =
      .ok [.valueInc 2, .valueDec 2] :=
  lexer_run_length_folding Char.isAlphanum 2 2 2 (by decide) (by decide)
    (by decide)

/-- C6: for every input character that is none of the eight symbols and not
whitespace, and for every alphanumeric test `isAlpha` (in particular the
Rust standard library's `char::is_alphanumeric`, which the source calls and
which is external to this repository): when the test rejects the character
the Lexer consumes it and emits ProcedureToken(c); when the test accepts it
the Lexer aborts with the illegal-character report. -/
theorem lexer_illegal_character (isAlpha : Char → Bool) (buffer : List Char)
    (p : Nat) (c : Char) (hc : buffer[p]? = some c)
    (hgt : c ≠ '>') (hlt : c ≠ '<') (hplus : c ≠ '+') (hminus : c ≠ '-')
    (hdot : c ≠ '.') (hcom : c ≠ ',') (hlb : c ≠ '[') (hrb : c ≠ ']')
    (hnl : c ≠ '\n') (hcr : c ≠ '\r') (hsp : c ≠ ' ') (htab : c ≠ '\t') :
    (isAlpha c = false →
      getOp isAlpha buffer p = .ok (some (.proc c), p + 1)) ∧
    (isAlpha c = true →
      getOp isAlpha buffer p = .error "Illegal character!") := by
  rw [getOp_some hc]
  constructor
  · intro ha
    simp [hgt, hlt, hplus, hminus, hdot, hcom, hlb, hrb, hnl, hcr, hsp, htab, ha]
  · intro ha
    simp [hgt, hlt, hplus, hminus, hdot, hcom, hlb, hrb, hnl, hcr, hsp, htab, ha]

/-- Witness for C6 at the characters `!` (ProcedureToken) and `a` (fatal),
instantiating the external test with the computable `Char.isAlphanum`,
which rejects `!` and accepts `a`. -/
theorem lexer_illegal_character_witness :
    getOp Char.isAlphanum ['!'] 0 = .ok (some (.proc '!'), 1) ∧
    getOp Char.isAlphanum ['a'] 0 = .error "Illegal character!" := by
  constructor
  · exact (lexer_illegal_character Char.isAlphanum ['!'] 0 '!' rfl (by decide)
      (by decide) (by decide) (by decide) (by decide) (by decide) (by decide)
      (by decide) (by decide) (by decide) (by decide) (by decide)).1
      (by decide)
  · exact (lexer_illegal_character Char.isAlphanum ['a'] 0 'a' rfl (by decide)
      (by decide) (by decide) (by decide) (by decide) (by decide) (by decide)
      (by decide) (by decide) (by decide) (by decide) (by decide)).2
      (by decide)

/-- Every Op in any successful output of the lexing loop has a positive run
length, provided the accumulator already satisfies that. -/
theorem runFrom_runLenPos (isAlpha : Char → Bool) (buffer : List Char) :
    ∀ n p acc ops, buffer.length - p ≤ n →
      runFrom isAlpha buffer p acc = .ok ops →
      (∀ op ∈ acc, op.runLenPos = true) →
      ∀ op ∈ ops, op.runLenPos = true := by
  intro n
  induction n with
  | zero =>
    intro p acc ops hn hrun hacc
    have hnone : buffer[p]? = none := List.getElem?_eq_none (by omega)
    rw [runFrom_eof (getOp_none hnone)] at hrun
    injection hrun with h2
    subst h2
    exact hacc
  | succ n ih =>
    intro p acc ops hn hrun hacc
    cases hres : getOp isAlpha buffer p with
    | error e =>
      rw [runFrom_err hres] at hrun
      exact Except.noConfusion hrun
    | ok r =>
      obtain ⟨o, q⟩ := r
      cases o with
      | none =>
        rw [runFrom_eof hres] at hrun
        injection hrun with h2
        subst h2
        exact hacc
      | some op0 =>
        rw [runFrom_op hres] at hrun
        have hspec := (getOp_spec isAlpha buffer p (some op0, q) hres).2 op0 rfl
        refine ih q (acc ++ [op0]) ops (by omega) hrun ?_
        intro op hop
        rcases List.mem_append.mp hop with hmem | hmem
        · exact hacc op hmem
        · rw [List.mem_singleton.mp hmem]
          exact hspec.2.2

/-- C9: no Op in the Lexer's output carries a run length of zero, for every
choice of the external alphanumeric test. -/
theorem lexer_no_zero_run_length (isAlpha : Char → Bool)
    (buffer : List Char) (ops : List Op)
    (h : run isAlpha buffer = .ok ops) :
    ∀ op ∈ ops, op.runLenPos = true := by
  refine runFrom_runLenPos isAlpha buffer buffer.length 0 [] ops (by omega)
    h ?_
  intro op hop
  simp at hop

/-- Witness for C9 on the input `++`. -/
theorem lexer_no_zero_run_length_witness :
    Op.runLenPos (Op.valueInc 2) = true := by
  obtain ⟨op, hop, hr⟩ :=
    run_replicate Char.isAlphanum '+' 2 (by tauto) (by omega)
  rw [show charToRunOp '+' 2 = some (.valueInc 2) from rfl] at hop
  cases hop
  exact lexer_no_zero_run_length Char.isAlphanum (List.replicate 2 '+')
    [Op.valueInc 2] hr (Op.valueInc 2) (by simp)

/-- C10: each call to `get_op` either reports end of input with the read
position exhausted, or strictly advances the read position while staying
within the buffer; the lexing loop `runFrom` (hence `Lexer::run`) is defined
by well-founded recursion on `buffer.length - p` using exactly this fact, so
lexing terminates on every finite input. -/
theorem lexer_getOp_progress (isAlpha : Char → Bool) (buffer : List Char)
    (p : Nat) :
    (∀ q, getOp isAlpha buffer p = .ok (none, q) → buffer[q]? = none) ∧
    (∀ op q, getOp isAlpha buffer p = .ok (some op, q) →
      p < q ∧ q ≤ buffer.length) := by
  constructor
  · intro q h
    exact ((getOp_spec isAlpha buffer p (none, q) h).1 rfl).1
  · intro op q h
    have := (getOp_spec isAlpha buffer p (some op, q) h).2 op rfl
    exact ⟨this.1, this.2.1⟩

/-- Witness for C10: an Op call site (`+`) and an end-of-input call site. -/
theorem lexer_getOp_progress_witness :
    (0 < 1 ∧ 1 ≤ (['+'] : List Char).length) ∧
    ([] : List Char)[(0 : Nat)]? = none := by
  constructor
  · refine (lexer_getOp_progress Char.isAlphanum ['+'] 0).2 (.valueInc 1)
      1 ?_
    have h1 : eatWhileSame ['+'] '+' 1 1 = (1, 1) := eatWhileSame_none rfl
    have h0 : eatWhileSame ['+'] '+' 0 0 = (1, 1) := by
      rw [eatWhileSame_some (show (['+'] : List Char)[0]? = some '+' from rfl),
        if_pos rfl, h1]
    rw [getOp_some (show (['+'] : List Char)[0]? = some '+' from rfl),
      if_pos (by tauto : '+' = '>' ∨ '+' = '<' ∨ '+' = '+' ∨ '+' = '-'), h0]
    rfl
  · exact (lexer_getOp_progress Char.isAlphanum [] 0).1 0 (getOp_none rfl)

end Lexer

/-! ## Code-generator theorems -/

namespace CodeGen

/-- Inversion for a successful `Except` bind. -/
theorem except_bind_ok {α β : Type} {x : Except String α}
    {f : α → Except String β} {b : β}
    (h : x >>= f = .ok b) : ∃ a, x = .ok a ∧ f a = .ok b := by
  cases x with
  | ok a => exact ⟨a, rfl, h⟩
  | error e => exact absurd h (by simp [Bind.bind, Except.bind])

/-- `emit` leaves the procedure registry unchanged. -/
theorem emit_procs {s : CGState} {i : Instr} {s2 : CGState}
    (h : emit s i = .ok s2) : s2.procs = s.procs := by
  unfold emit at h
  split at h
  · injection h with h2
    subst h2
    rfl
  · exact Except.noConfusion h

/-- `buildLoad` leaves the procedure registry unchanged. -/
theorem buildLoad_procs {s : CGState} {v : Val} {r : Val × CGState}
    (h : buildLoad s v = .ok r) : r.2.procs = s.procs := by
  unfold buildLoad at h
  split at h
  · simp only [Except.map] at h
    split at h
    · exact Except.noConfusion h
    · rename_i v2 heq
      injection h with h2
      subst h2
      exact (emit_procs heq).trans rfl
  · exact Except.noConfusion h

/-- `buildAlloca` leaves the procedure registry unchanged. -/
theorem buildAlloca_procs {s : CGState} {ty : Ty} {r : Val × CGState}
    (h : buildAlloca s ty = .ok r) : r.2.procs = s.procs := by
  unfold buildAlloca at h
  simp only [Except.map] at h
  split at h
  · exact Except.noConfusion h
  · rename_i v2 heq
    injection h with h2
    subst h2
    exact (emit_procs heq).trans rfl

/-- `buildGep` leaves the procedure registry unchanged. -/
theorem buildGep_procs {s : CGState} {base offset : Val} {r : Val × CGState}
    (h : buildGep s base offset = .ok r) : r.2.procs = s.procs := by
  unfold buildGep at h
  split at h
  · simp only [Except.map] at h
    split at h
    · exact Except.noConfusion h
    · rename_i v2 heq
      injection h with h2
      subst h2
      exact (emit_procs heq).trans rfl
  · exact Except.noConfusion h

/-- `buildAdd` leaves the procedure registry unchanged. -/
theorem buildAdd_procs {s : CGState} {lhs rhs : Val} {r : Val × CGState}
    (h : buildAdd s lhs rhs = .ok r) : r.2.procs = s.procs := by
  unfold buildAdd at h
  simp only [Except.map] at h
  split at h
  · exact Except.noConfusion h
  · rename_i v2 heq
    injection h with h2
    subst h2
    exact (emit_procs heq).trans rfl

/-- `buildSub` leaves the procedure registry unchanged. -/
theorem buildSub_procs {s : CGState} {lhs rhs : Val} {r : Val × CGState}
    (h : buildSub s lhs rhs = .ok r) : r.2.procs = s.procs := by
  unfold buildSub at h
  simp only [Except.map] at h
  split at h
  · exact Except.noConfusion h
  · rename_i v2 heq
    injection h with h2
    subst h2
    exact (emit_procs heq).trans rfl

/-- `buildICmpNe` leaves the procedure registry unchanged. -/
theorem buildICmpNe_procs {s : CGState} {lhs rhs : Val} {r : Val × CGState}
    (h : buildICmpNe s lhs rhs = .ok r) : r.2.procs = s.procs := by
  unfold buildICmpNe at h
  simp only [Except.map] at h
  split at h
  · exact Except.noConfusion h
  · rename_i v2 heq
    injection h with h2
    subst h2
    exact (emit_procs heq).trans rfl

/-- `buildCall` leaves the procedure registry unchanged. -/
theorem buildCall_procs {s : CGState} {callee : String} {args : List Val}
    {r : Option Val × CGState}
    (h : buildCall s callee args = .ok r) : r.2.procs = s.procs := by
  unfold buildCall at h
  split at h
  · exact Except.noConfusion h
  · split at h
    · simp only [Except.map] at h
      split at h
      · exact Except.noConfusion h
      · rename_i v2 heq
        injection h with h2
        subst h2
        exact (emit_procs heq).trans rfl
    · simp only [Except.map] at h
      split at h
      · exact Except.noConfusion h
      · rename_i v2 heq
        injection h with h2
        subst h2
        exact (emit_procs heq).trans rfl

/-- `ptr_manipulate` leaves the procedure registry unchanged. -/
theorem ptr_manipulate_procs {s : CGState} {n : Nat} {d : Bool} {s2 : CGState}
    (h : ptr_manipulate s n d = .ok s2) : s2.procs = s.procs := by
  unfold ptr_manipulate at h
  obtain ⟨t, ht, h⟩ := except_bind_ok h
  obtain ⟨r1, hr1, h⟩ := except_bind_ok h
  obtain ⟨r2, hr2, h⟩ := except_bind_ok h
  have e0 := emit_procs h
  have e2 := buildGep_procs hr2
  have e1 := buildLoad_procs hr1
  exact e0.trans (e2.trans e1)

/-- `val_manipulate` leaves the procedure registry unchanged. -/
theorem val_manipulate_procs {s : CGState} {n : Nat} {d : Bool} {s2 : CGState}
    (h : val_manipulate s n d = .ok s2) : s2.procs = s.procs := by
  unfold val_manipulate at h
  obtain ⟨t, ht, h⟩ := except_bind_ok h
  obtain ⟨r1, hr1, h⟩ := except_bind_ok h
  obtain ⟨r2, hr2, h⟩ := except_bind_ok h
  have e2 := (buildLoad_procs hr2).trans (buildLoad_procs hr1)
  cases d with
  | false =>
    simp only [Bool.not_false, if_true, ite_true] at h
    obtain ⟨r3, hr3, h⟩ := except_bind_ok h
    exact (emit_procs h).trans ((buildAdd_procs hr3).trans e2)
  | true =>
    simp only [Bool.not_true] at h
    simp only [Bool.false_eq_true, if_false, ite_false] at h
    obtain ⟨r3, hr3, h⟩ := except_bind_ok h
    exact (emit_procs h).trans ((buildSub_procs hr3).trans e2)

/-- `out` leaves the procedure registry unchanged. -/
theorem out_procs {s : CGState} {s2 : CGState}
    (h : out s = .ok s2) : s2.procs = s.procs := by
  unfold out at h
  obtain ⟨t, ht, h⟩ := except_bind_ok h
  obtain ⟨r1, hr1, h⟩ := except_bind_ok h
  obtain ⟨r2, hr2, h⟩ := except_bind_ok h
  obtain ⟨r3, hr3, h⟩ := except_bind_ok h
  injection h with h2
  subst h2
  exact (buildCall_procs hr3).trans
    ((buildLoad_procs hr2).trans (buildLoad_procs hr1))

/-- `input` leaves the procedure registry unchanged. -/
theorem input_procs {s : CGState} {s2 : CGState}
    (h : input s = .ok s2) : s2.procs = s.procs := by
  unfold input at h
  obtain ⟨t, ht, h⟩ := except_bind_ok h
  obtain ⟨r1, hr1, h⟩ := except_bind_ok h
  obtain ⟨r2, hr2, h⟩ := except_bind_ok h
  split at h
  · exact (emit_procs h).trans
      ((buildCall_procs hr2).trans (buildLoad_procs hr1))
  · exact Except.noConfusion h

/-- `loop_start` leaves the procedure registry unchanged. -/
theorem loop_start_procs {s : CGState} {s2 : CGState}
    (h : loop_start s = .ok s2) : s2.procs = s.procs := by
  unfold loop_start at h
  obtain ⟨b0, hb0, h⟩ := except_bind_ok h
  obtain ⟨pr, hpr, h⟩ := except_bind_ok h
  obtain ⟨sA, hA, h⟩ := except_bind_ok h
  obtain ⟨t, ht, h⟩ := except_bind_ok h
  obtain ⟨r1, hr1, h⟩ := except_bind_ok h
  obtain ⟨r2, hr2, h⟩ := except_bind_ok h
  obtain ⟨r3, hr3, h⟩ := except_bind_ok h
  obtain ⟨sB, hB, h⟩ := except_bind_ok h
  injection h with h2
  subst h2
  exact (emit_procs hB).trans ((buildICmpNe_procs hr3).trans
    ((buildLoad_procs hr2).trans ((buildLoad_procs hr1).trans
      ((emit_procs hA).trans rfl))))

/-- `loop_end` leaves the procedure registry unchanged. -/
theorem loop_end_procs {s : CGState} {s2 : CGState}
    (h : loop_end s = .ok s2) : s2.procs = s.procs := by
  unfold loop_end at h
  split at h
  · exact Except.noConfusion h
  · obtain ⟨sA, hA, h⟩ := except_bind_ok h
    injection h with h2
    subst h2
    exact (emit_procs hA).trans rfl

end CodeGen

namespace CodeGen

/-- `buildStore` leaves the procedure registry unchanged. -/
theorem buildStore_procs {s : CGState} {d v : Val} {s2 : CGState}
    (h : buildStore s d v = .ok s2) : s2.procs = s.procs := by
  unfold buildStore at h
  exact emit_procs h

/-- Registry effect of `CodeGen::proc`: Unseen inserts Defining, Defining
inserts Ready (with some function name), Ready leaves the registry alone. -/
theorem procOp_procs {s : CGState} {c : Char} {s2 : CGState}
    (h : procOp s c = .ok s2) :
    (procsGet s.procs c = none ∧
      s2.procs = procsInsert s.procs c none) ∨
    (∃ fn, procsGet s.procs c = some none ∧
      s2.procs = procsInsert s.procs c (some fn)) ∨
    ((∃ fn, procsGet s.procs c = some (some fn)) ∧ s2.procs = s.procs) := by
  unfold procOp at h
  cases hreg : procsGet s.procs c with
  | none =>
    rw [hreg] at h
    obtain ⟨ra, hra, h⟩ := except_bind_ok h
    obtain ⟨sA, hA, h⟩ := except_bind_ok h
    injection h with h2
    subst h2
    refine Or.inl ⟨rfl, ?_⟩
    show procsInsert sA.procs c none = procsInsert s.procs c none
    rw [(buildStore_procs hA).trans ((buildAlloca_procs hra).trans rfl)]
    rfl
  | some entry =>
    cases entry with
    | none =>
      rw [hreg] at h
      obtain ⟨sA, hA, h⟩ := except_bind_ok h
      obtain ⟨rest, hrest, h⟩ := except_bind_ok h
      obtain ⟨mainF, hmainF, h⟩ := except_bind_ok h
      obtain ⟨lb, hlb, h⟩ := except_bind_ok h
      obtain ⟨f, hfF, h⟩ := except_bind_ok h
      injection h with h2
      subst h2
      refine Or.inr (Or.inl ⟨f.name, rfl, ?_⟩)
      show procsInsert sA.procs c (some f.name) = procsInsert s.procs c (some f.name)
      rw [emit_procs hA]
    | some fn =>
      rw [hreg] at h
      obtain ⟨t, ht, h⟩ := except_bind_ok h
      obtain ⟨r1, hr1, h⟩ := except_bind_ok h
      obtain ⟨r2, hr2, h⟩ := except_bind_ok h
      injection h with h2
      subst h2
      exact Or.inr (Or.inr ⟨⟨fn, rfl⟩,
        (buildCall_procs hr2).trans (buildLoad_procs hr1)⟩)

/-- Registry effect of one generator step: unchanged, or one forward
registry transition of the processed identifier. -/
theorem step_procs {s : CGState} {op : Op} {s2 : CGState}
    (h : step s op = .ok s2) :
    s2.procs = s.procs ∨
    ∃ c, op = .proc c ∧
      ((procsGet s.procs c = none ∧
          s2.procs = procsInsert s.procs c none) ∨
       (∃ fn, procsGet s.procs c = some none ∧
          s2.procs = procsInsert s.procs c (some fn))) := by
  cases op with
  | pointerInc n => exact Or.inl (ptr_manipulate_procs h)
  | pointerDec n => exact Or.inl (ptr_manipulate_procs h)
  | valueInc n => exact Or.inl (val_manipulate_procs h)
  | valueDec n => exact Or.inl (val_manipulate_procs h)
  | output => exact Or.inl (out_procs h)
  | input => exact Or.inl (input_procs h)
  | lloop => exact Or.inl (loop_start_procs h)
  | rloop => exact Or.inl (loop_end_procs h)
  | proc c =>
    rcases procOp_procs h with ⟨ha, hb⟩ | ⟨fn, ha, hb⟩ | ⟨_, hb⟩
    · exact Or.inr ⟨c, rfl, Or.inl ⟨ha, hb⟩⟩
    · exact Or.inr ⟨c, rfl, Or.inr ⟨fn, ha, hb⟩⟩
    · exact Or.inl hb

/-- `find?` by the inserted key over the map form of `procsInsert`. -/
theorem find?_insert_key_map (m : List (Char × Option String)) (c : Char)
    (v : Option String) (hany : m.any (fun q => q.1 = c) = true) :
    (m.map (fun q => if q.1 = c then (c, v) else q)).find?
        (fun q => q.1 = c) = some (c, v) := by
  induction m with
  | nil => simp at hany
  | cons q tl ih =>
    rw [List.map_cons]
    by_cases hq : q.1 = c
    · rw [if_pos hq, List.find?_cons_of_pos _ (by simp)]
    · rw [if_neg hq, List.find?_cons_of_neg _ (by simp [hq])]
      refine ih ?_
      rw [List.any_cons] at hany
      simpa [hq] using hany

/-- `find?` by the inserted key over the append form of `procsInsert`. -/
theorem find?_insert_key_append (m : List (Char × Option String)) (c : Char)
    (v : Option String) (hnone : m.any (fun q => q.1 = c) = false) :
    (m ++ [(c, v)]).find? (fun q => q.1 = c) = some (c, v) := by
  induction m with
  | nil => rw [List.nil_append, List.find?_cons_of_pos _ (by simp)]
  | cons q tl ih =>
    rw [List.any_cons] at hnone
    have hq : ¬(q.1 = c) := by
      intro hq2
      simp [hq2] at hnone
    rw [List.cons_append, List.find?_cons_of_neg _ (by simp [hq])]
    refine ih ?_
    simpa [hq] using hnone

/-- `find?` by a different key is untouched by the map form. -/
theorem find?_insert_key_map_ne (m : List (Char × Option String)) (c c2 : Char)
    (v : Option String) (hne : c2 ≠ c) :
    (m.map (fun q => if q.1 = c then (c, v) else q)).find?
        (fun q => q.1 = c2) = m.find? (fun q => q.1 = c2) := by
  induction m with
  | nil => rfl
  | cons q tl ih =>
    rw [List.map_cons]
    by_cases hq2 : q.1 = c2
    · have hq : ¬(q.1 = c) := by
        rw [hq2]
        exact fun hh => hne hh
      rw [if_neg hq, List.find?_cons_of_pos _ (by simp [hq2]),
        List.find?_cons_of_pos _ (by simp [hq2])]
    · by_cases hq : q.1 = c
      · rw [if_pos hq,
          List.find?_cons_of_neg _ (by simp only [decide_eq_true_eq]; exact fun hh => hne hh.symm),
          List.find?_cons_of_neg _ (by simp [hq2])]
        exact ih
      · rw [if_neg hq, List.find?_cons_of_neg _ (by simp [hq2]),
          List.find?_cons_of_neg _ (by simp [hq2])]
        exact ih

/-- `find?` by a different key is untouched by the append form. -/
theorem find?_insert_key_append_ne (m : List (Char × Option String))
    (c c2 : Char) (v : Option String) (hne : c2 ≠ c) :
    (m ++ [(c, v)]).find? (fun q => q.1 = c2) =
      m.find? (fun q => q.1 = c2) := by
  induction m with
  | nil =>
    rw [List.nil_append,
      List.find?_cons_of_neg _ (by simp only [decide_eq_true_eq]; exact fun hh => hne hh.symm)]
  | cons q tl ih =>
    rw [List.cons_append]
    by_cases hq2 : q.1 = c2
    · rw [List.find?_cons_of_pos _ (by simp [hq2]),
        List.find?_cons_of_pos _ (by simp [hq2])]
    · rw [List.find?_cons_of_neg _ (by simp [hq2]),
        List.find?_cons_of_neg _ (by simp [hq2])]
      exact ih

/-- Looking up the inserted key after `procsInsert` yields the new value. -/
theorem procsGet_insert_self (m : List (Char × Option String)) (c : Char)
    (v : Option String) : procsGet (procsInsert m c v) c = some v := by
  unfold procsInsert procsGet
  by_cases hany : m.any (fun q => q.1 = c) = true
  · rw [if_pos hany, find?_insert_key_map m c v hany]
    rfl
  · rw [if_neg hany, find?_insert_key_append m c v
      (by revert hany; cases m.any (fun q => q.1 = c) <;> simp)]
    rfl

/-- Looking up a different key after `procsInsert` is unchanged. -/
theorem procsGet_insert_ne (m : List (Char × Option String)) (c c2 : Char)
    (v : Option String) (hne : c2 ≠ c) :
    procsGet (procsInsert m c v) c2 = procsGet m c2 := by
  unfold procsInsert procsGet
  by_cases hany : m.any (fun q => q.1 = c) = true
  · rw [if_pos hany, find?_insert_key_map_ne m c c2 v hne]
  · rw [if_neg hany, find?_insert_key_append_ne m c c2 v hne]

end CodeGen

namespace CodeGen

/-- Rank effect of one generator step: nondecreasing, by at most one. -/
theorem step_regRank {s : CGState} {op : Op} {s2 : CGState} (c : Char)
    (h : step s op = .ok s2) :
    regRank s.procs c ≤ regRank s2.procs c ∧
      regRank s2.procs c ≤ regRank s.procs c + 1 := by
  rcases step_procs h with heq | ⟨c0, hop, hcase⟩
  · have heq2 : regRank s2.procs c = regRank s.procs c := by rw [heq]
    rw [heq2]
    exact ⟨le_rfl, by omega⟩
  · by_cases hc : c = c0
    · subst hc
      rcases hcase with ⟨hget, hins⟩ | ⟨fn, hget, hins⟩
      · have h1 : regRank s.procs c = 0 := by
          unfold regRank
          rw [hget]
        have h2 : regRank s2.procs c = 1 := by
          unfold regRank
          rw [hins, procsGet_insert_self]
        rw [h1, h2]
        exact ⟨by omega, by omega⟩
      · have h1 : regRank s.procs c = 1 := by
          unfold regRank
          rw [hget]
        have h2 : regRank s2.procs c = 2 := by
          unfold regRank
          rw [hins, procsGet_insert_self]
        rw [h1, h2]
        exact ⟨by omega, by omega⟩
    · have heq2 : regRank s2.procs c = regRank s.procs c := by
        rcases hcase with ⟨hget, hins⟩ | ⟨fn, hget, hins⟩ <;>
          (unfold regRank; rw [hins, procsGet_insert_ne _ _ _ _ hc])
      rw [heq2]
      exact ⟨le_rfl, by omega⟩

/-- A trace always starts with its initial state. -/
theorem cgTrace_cons (s : CGState) (ops : List Op) :
    ∃ l, cgTrace s ops = s :: l := by
  cases ops with
  | nil => exact ⟨[], rfl⟩
  | cons op rest =>
    rw [cgTrace]
    cases h : step s op with
    | ok s2 => exact ⟨_, rfl⟩
    | error e => exact ⟨[], rfl⟩

/-- Along a trace, the rank of every identifier is nondecreasing and moves
by at most one per step. -/
theorem cgTrace_chain (c : Char) :
    ∀ (ops : List Op) (s0 : CGState),
      List.Chain' (fun x y => x ≤ y ∧ y ≤ x + 1)
        ((cgTrace s0 ops).map (fun s => regRank s.procs c)) := by
  intro ops
  induction ops with
  | nil =>
    intro s0
    simp [cgTrace]
  | cons op rest ih =>
    intro s0
    cases h : step s0 op with
    | error e =>
      have hred : cgTrace s0 (op :: rest) = [s0] := by rw [cgTrace, h]
      rw [hred]
      simp
    | ok s2 =>
      have hred : cgTrace s0 (op :: rest) = s0 :: cgTrace s2 rest := by
        rw [cgTrace, h]
      rw [hred]
      obtain ⟨l, hl⟩ := cgTrace_cons s2 rest
      rw [hl, List.map_cons, List.map_cons]
      refine List.chain'_cons.mpr ⟨?_, ?_⟩
      · exact step_regRank c h
      · have := ih s2
        rw [hl, List.map_cons] at this
        exact this

/-- A chain that increases by at most one per step never makes a 0→2 jump. -/
theorem countTrans_zero_skip :
    ∀ l : List Nat, List.Chain' (fun x y => y ≤ x + 1) l →
      countTrans l 0 2 = 0 := by
  intro l
  induction l with
  | nil => intro _; rfl
  | cons x tl ih =>
    intro hc
    cases tl with
    | nil => rfl
    | cons y tl2 =>
      rw [countTrans, ih (List.chain'_cons.mp hc).2]
      have h1 : y ≤ x + 1 := (List.chain'_cons.mp hc).1
      have h2 : ¬(x = 0 ∧ y = 2) := by
        rintro ⟨rfl, rfl⟩
        omega
      simp [h2]

/-- In a nondecreasing chain whose head exceeds `a`, no adjacent pair starts
at `a`. -/
theorem countTrans_zero_of_head_gt :
    ∀ (l : List Nat) (x a b : Nat), List.Chain' (· ≤ ·) (x :: l) → a < x →
      countTrans (x :: l) a b = 0 := by
  intro l
  induction l with
  | nil => intro x a b _ _; rfl
  | cons y tl ih =>
    intro x a b hc ha
    rw [countTrans]
    have hxy : x ≤ y := (List.chain'_cons.mp hc).1
    rw [ih y a b (List.chain'_cons.mp hc).2 (by omega)]
    have h2 : ¬(x = a ∧ y = b) := by
      rintro ⟨rfl, h2b⟩
      omega
    simp [h2]

/-- In a nondecreasing chain, an adjacent pair `(a, b)` with `a < b` occurs
at most once. -/
theorem countTrans_le_one :
    ∀ (l : List Nat) (a b : Nat), a < b → List.Chain' (· ≤ ·) l →
      countTrans l a b ≤ 1 := by
  intro l
  induction l with
  | nil => intro a b _ _; exact Nat.zero_le _
  | cons x tl ih =>
    intro a b hab hc
    cases tl with
    | nil => exact Nat.zero_le _
    | cons y tl2 =>
      rw [countTrans]
      by_cases hxy : x = a ∧ y = b
      · obtain ⟨rfl, rfl⟩ := hxy
        rw [countTrans_zero_of_head_gt tl2 y x y (List.chain'_cons.mp hc).2 hab]
        simp
      · rw [if_neg hxy]
        have := ih a b hab (List.chain'_cons.mp hc).2
        omega

end CodeGen

/-- C7: over any generation pass, each identifier's procedure-registry entry
only moves forward through Unseen (rank 0), Defining (rank 1), Ready (rank
2), in that fixed order: along the trace of generator states the rank
sequence is nondecreasing (entries are never removed or demoted), never
jumps straight from Unseen to Ready, and each of the transitions
Unseen→Defining and Defining→Ready occurs at most once. -/
theorem codegen_registry_monotone (s0 : CGState) (ops : List Op) (c : Char) :
    List.Chain' (· ≤ ·)
      ((cgTrace s0 ops).map (fun s => regRank s.procs c)) ∧
    countTrans ((cgTrace s0 ops).map (fun s => regRank s.procs c)) 0 2 = 0 ∧
    countTrans ((cgTrace s0 ops).map (fun s => regRank s.procs c)) 0 1 ≤ 1 ∧
    countTrans ((cgTrace s0 ops).map (fun s => regRank s.procs c)) 1 2 ≤ 1 := by
  have hch := CodeGen.cgTrace_chain c ops s0
  have hle : List.Chain' (· ≤ ·)
      ((cgTrace s0 ops).map (fun s => regRank s.procs c)) :=
    hch.imp (fun _ _ h => h.1)
  have hsucc : List.Chain' (fun x y => y ≤ x + 1)
      ((cgTrace s0 ops).map (fun s => regRank s.procs c)) :=
    hch.imp (fun _ _ h => h.2)
  exact ⟨hle, CodeGen.countTrans_zero_skip _ hsucc,
    CodeGen.countTrans_le_one _ 0 1 (by omega) hle,
    CodeGen.countTrans_le_one _ 1 2 (by omega) hle⟩

/-- C1 (evidence of the width mismatch at a failing input): for
CellIncrement(1) and CellDecrement(1) the generator emits an add/sub whose
left operand (the loaded cell value) has 8-bit type while the right operand
(the run-length constant, built with `i64_type().const_int(..)` in
`val_manipulate`) has 64-bit type.  The operand widths differ, so the
arithmetic is not performed at the cell's 8-bit width as the specification
requires. -/
theorem codegen_cell_arith_width_mismatch :
    (CodeGen.new.bind
        (fun s => CodeGen.steps s [.valueInc 1, .valueDec 1])).map
        addSubOperandTys
      = .ok [(Ty.int 8, Ty.int 64), (Ty.int 8, Ty.int 64)] ∧
    Ty.int 64 ≠ Ty.int 8 :=
  ⟨rfl, by decide⟩

/-- C8 (evidence of the call-width mismatch at a failing input): processing
an Output Op loads the pointer, loads the addressed byte and calls `putchar`
with that 8-bit value as the sole argument, with no extension instruction;
but `putchar` is declared with an i32 parameter, so the argument width does
not match the declared parameter width and no sign/zero-extension is
applied. -/
theorem codegen_output_width_mismatch :
    (CodeGen.new.bind (fun s => CodeGen.step s .output)).map
        (fun s => (putcharCallArgTys s,
          (CodeGen.getFunction s "putchar").map Func.params))
      = .ok ([[Ty.int 8]], some [Ty.int 32]) ∧
    Ty.int 8 ≠ Ty.int 32 :=
  ⟨rfl, by decide⟩

/-- C2 counterexample: in the Op sequence LoopOpen, Proc('!'), Proc('!')
(source `[!!`), closing the procedure definition repositions insertion at
main's last block — the loop EXIT block 3 — whereas generation of the outer
program would have continued at the loop BODY block 2, the insertion point
right after LoopOpen (i.e. where generation stood when the procedure
definition began).  The two blocks differ, so "the last block of the
top-level program function" is not "exactly the insertion point where
generation of the outer program would have continued". -/
theorem codegen_proc_resume_counterexample :
    (CodeGen.new.bind
        (fun s => CodeGen.steps s [.lloop, .proc '!', .proc '!'])).map
        CGState.insertion = .ok (some 3) ∧
    (CodeGen.new.bind (fun s => CodeGen.steps s [.lloop])).map
        CGState.insertion = .ok (some 2) ∧
    (3 : Nat) ≠ 2 :=
  ⟨rfl, rfl, by decide⟩

/-- C2 (amended): processing ProcedureToken(c) in the Defining state emits a
void return in the current block, pops the pointer-scope stack, records the
completed function as the registry entry's handle, and repositions insertion
at the last block of the top-level `main` function — which is not in general
the insertion point where generation of the outer program would have
continued (see `codegen_proc_resume_counterexample`). -/
theorem codegen_proc_defining_to_ready
    (nt nb : Nat) (funcs : List Func) (bo : List (Nat × String))
    (ins : List (Nat × Instr)) (b : Nat) (t : Val) (rest : List Val)
    (loops : List (Nat × Nat)) (procs : List (Char × Option String))
    (c : Char) (mainF pf : Func) (lb : Nat)
    (hreg : CodeGen.procsGet procs c = some none)
    (hmain : funcs.find? (fun f => f.name = "main") = some mainF)
    (hlast : mainF.blocks.getLast? = some lb)
    (hf : funcs.find? (fun f => f.name = String.mk [c]) = some pf) :
    CodeGen.procOp ⟨nt, nb, funcs, bo, ins, some b, t :: rest, loops, procs⟩
        c =
      .ok ⟨nt, nb, funcs, bo, ins ++ [(b, .ret none)], some lb, rest, loops,
           CodeGen.procsInsert procs c (some pf.name)⟩ := by
  simp only [CodeGen.procOp, CodeGen.emit, CodeGen.getFunction,
    CodeGen.positionAtEnd, bind, Except.bind, pure, Except.pure,
    hreg, hmain, hlast, hf]

/-- Witness for the amended C2 on a concrete Defining-state generator. -/
theorem codegen_proc_defining_to_ready_witness :
    CodeGen.procOp procWitState '!' =
      .ok ⟨9, 3,
           [⟨"main", [], .int 8, [0, 1]⟩, ⟨"!", [.ptr (.int 8)], .void, [2]⟩],
           [(0, "main"), (1, "main"), (2, "!")],
           [(2, .ret none)], some 1, [.temp 0 (.ptr (.ptr (.int 8)))], [],
           [('!', some "!")]⟩ :=
  codegen_proc_defining_to_ready 9 3
    [⟨"main", [], .int 8, [0, 1]⟩, ⟨"!", [.ptr (.int 8)], .void, [2]⟩]
    [(0, "main"), (1, "main"), (2, "!")] [] 2
    (.temp 5 (.ptr (.ptr (.int 8)))) [.temp 0 (.ptr (.ptr (.int 8)))] []
    [('!', none)] '!' ⟨"main", [], .int 8, [0, 1]⟩
    ⟨"!", [.ptr (.int 8)], .void, [2]⟩ 1 rfl rfl rfl rfl

/-- C5: LoopClose with a non-empty loop-frame stack pops the top frame,
emits an unconditional branch from the current insertion point back to that
frame's condition block, and repositions insertion at that frame's exit
block; LoopClose with an empty loop-frame stack is a fatal abort. -/
theorem codegen_loop_close (s : CGState) :
    (s.loops = [] →
      CodeGen.loop_end s = .error "pop from empty loop stack") ∧
    (∀ cb eb rest b, s.loops = (cb, eb) :: rest → s.insertion = some b →
      CodeGen.loop_end s = .ok { s with
        loops := rest,
        instrs := s.instrs ++ [(b, .br cb)],
        insertion := some eb }) := by
  constructor
  · intro h
    simp only [CodeGen.loop_end, h]
  · intro cb eb rest b hl hins
    simp only [CodeGen.loop_end, hl, CodeGen.emit, hins, bind, Except.bind,
      CodeGen.positionAtEnd, pure, Except.pure]

/-- Witness for C5: one state with an open loop frame, one without. -/
theorem codegen_loop_close_witness :
    CodeGen.loop_end loopCloseEmptyState =
      .error "pop from empty loop stack" ∧
    CodeGen.loop_end loopCloseWitState =
      .ok { loopCloseWitState with
        loops := [], instrs := [(2, .br 1)], insertion := some 3 } :=
  ⟨(codegen_loop_close loopCloseEmptyState).1 rfl,
   (codegen_loop_close loopCloseWitState).2 1 3 [] 2 rfl rfl⟩

namespace CodeGen

/-- `find?` by name commutes with a same-name block append. -/
theorem find?_name_blockUpdate (l : List Func) (fname : String) (bNew : Nat) :
    (l.map (fun f =>
        if f.name = fname then { f with blocks := f.blocks ++ [bNew] }
        else f)).find? (fun f => f.name = fname) =
      (l.find? (fun f => f.name = fname)).map
        (fun f => { f with blocks := f.blocks ++ [bNew] }) := by
  induction l with
  | nil => rfl
  | cons f rest ih =>
    rw [List.map_cons]
    by_cases hf : f.name = fname
    · rw [if_pos hf, List.find?_cons_of_pos _ (by simp [hf]),
        List.find?_cons_of_pos _ (by simp [hf])]
      rfl
    · rw [if_neg hf, List.find?_cons_of_neg _ (by simp [hf]),
        List.find?_cons_of_neg _ (by simp [hf])]
      exact ih

end CodeGen

/-- C4: LoopOpen creates three new blocks — condition, body, exit — in that
order in the current block's function, pushes (condition, exit) onto the
loop-frame stack, emits an unconditional branch to condition, emits in
condition a load of the current pointer, a load of the addressed cell, a
nonzero comparison and a conditional branch to body (nonzero) or exit
(zero), and leaves insertion at body. -/
theorem codegen_loop_open
    (nt nb : Nat) (funcs : List Func) (bo : List (Nat × String))
    (ins : List (Nat × Instr)) (b : Nat) (fname : String) (t : Val)
    (rest : List Val) (τ : Ty) (loops : List (Nat × Nat))
    (procs : List (Char × Option String))
    (howner : bo.find? (fun q => q.1 = b) = some (b, fname))
    (hty : t.ty = .ptr (.ptr τ)) :
    ∃ s2,
      CodeGen.loop_start
          ⟨nt, nb, funcs, bo, ins, some b, t :: rest, loops, procs⟩ =
        .ok s2 ∧
      (CodeGen.getFunction s2 fname).map Func.blocks =
        ((CodeGen.getFunction
            ⟨nt, nb, funcs, bo, ins, some b, t :: rest, loops, procs⟩
            fname).map Func.blocks).map
          (fun bl => bl ++ [nb, nb + 1, nb + 2]) ∧
      s2.loops = (nb, nb + 2) :: loops ∧
      s2.instrs = ins ++
        [(b, .br nb),
         (nb, .load (.temp nt (.ptr τ)) t),
         (nb, .load (.temp (nt + 1) τ) (.temp nt (.ptr τ))),
         (nb, .icmpNe (.temp (nt + 2) (.int 1)) (.temp (nt + 1) τ)
            (.cst (.int 8) 0)),
         (nb, .condBr (.temp (nt + 2) (.int 1)) (nb + 1) (nb + 2))] ∧
      s2.insertion = some (nb + 1) := by
  have hred : CodeGen.loop_start
      ⟨nt, nb, funcs, bo, ins, some b, t :: rest, loops, procs⟩ =
      .ok { nextTemp := nt + 1 + 1 + 1,
            nextBlock := nb + 1 + 1 + 1,
            funcs := List.map
              (fun f => if f.name = fname then
                  { f with blocks := f.blocks ++ [nb + 1 + 1] } else f)
              (List.map
                (fun f => if f.name = fname then
                    { f with blocks := f.blocks ++ [nb + 1] } else f)
                (List.map
                  (fun f => if f.name = fname then
                      { f with blocks := f.blocks ++ [nb] } else f)
                  funcs)),
            blockOwner := bo ++ [(nb, fname)] ++ [(nb + 1, fname)]
              ++ [(nb + 1 + 1, fname)],
            instrs := ins ++ [(b, .br nb)]
              ++ [(nb, .load (.temp nt (.ptr τ)) t)]
              ++ [(nb, .load (.temp (nt + 1) τ) (.temp nt (.ptr τ)))]
              ++ [(nb, .icmpNe (.temp (nt + 1 + 1) (.int 1))
                    (.temp (nt + 1) τ) (.cst (.int 8) 0))]
              ++ [(nb, .condBr (.temp (nt + 1 + 1) (.int 1)) (nb + 1)
                    (nb + 1 + 1))],
            insertion := some (nb + 1),
            ptr := t :: rest,
            loops := (nb, nb + 1 + 1) :: loops,
            procs := procs } := by
    simp only [CodeGen.loop_start, CodeGen.appendBasicBlock,
      CodeGen.positionAtEnd, CodeGen.emit, CodeGen.ptrTop, CodeGen.buildLoad,
      CodeGen.buildICmpNe, CodeGen.freshTemp, Except.map, bind, Except.bind,
      pure, Except.pure, howner, hty]
    rfl
  refine ⟨_, hred, ?_, ?_, ?_, ?_⟩
  · simp only [CodeGen.getFunction]
    rw [CodeGen.find?_name_blockUpdate, CodeGen.find?_name_blockUpdate,
      CodeGen.find?_name_blockUpdate]
    cases hfind : funcs.find? (fun f => f.name = fname) with
    | none => rfl
    | some f =>
      simp [List.append_assoc, show nb + 1 + 1 = nb + 2 from rfl]
  · rfl
  · simp [List.append_assoc]
  · rfl

/-- Witness for C4 at a concrete generator state positioned in `main`. -/
theorem codegen_loop_open_witness :
    ∃ s2,
      CodeGen.loop_start
          ⟨0, 1, [⟨"main", [], .int 8, [0]⟩], [(0, "main")], [], some 0,
           [.temp 7 (.ptr (.ptr (.int 8)))], [], []⟩ =
        .ok s2 ∧
      (CodeGen.getFunction s2 "main").map Func.blocks =
        ((CodeGen.getFunction
            ⟨0, 1, [⟨"main", [], .int 8, [0]⟩], [(0, "main")], [], some 0,
             [.temp 7 (.ptr (.ptr (.int 8)))], [], []⟩
            "main").map Func.blocks).map
          (fun bl => bl ++ [1, 1 + 1, 1 + 2]) ∧
      s2.loops = (1, 1 + 2) :: [] ∧
      s2.instrs = [] ++
        [(0, .br 1),
         (1, .load (.temp 0 (.ptr (.int 8))) (.temp 7 (.ptr (.ptr (.int 8))))),
         (1, .load (.temp (0 + 1) (.int 8)) (.temp 0 (.ptr (.int 8)))),
         (1, .icmpNe (.temp (0 + 2) (.int 1)) (.temp (0 + 1) (.int 8))
            (.cst (.int 8) 0)),
         (1, .condBr (.temp (0 + 2) (.int 1)) (1 + 1) (1 + 2))] ∧
      s2.insertion = some (1 + 1) :=
  codegen_loop_open 0 1 [⟨"main", [], .int 8, [0]⟩] [(0, "main")] [] 0 "main"
    (.temp 7 (.ptr (.ptr (.int 8)))) [] (.int 8) [] [] rfl rfl
